import Mathlib

/-!
Verification of the apt source-list parsing and editing library.

Strings are modelled as lists of characters (`Str`), faithful to the
byte/char handling of the source: every slicing operation in the source
happens at a character boundary, so char-level indexing agrees with the
source's byte-level indexing on the strings involved.
-/

set_option maxRecDepth 4000

deriving instance DecidableEq for Except

/-- Strings, modelled as lists of characters. -/
abbrev Str := List Char

/-- Unicode `White_Space` test, matching `char::is_whitespace` in the source
language's standard library (used by `trim` and `split_whitespace`). -/
def rustIsWhitespace (c : Char) : Bool :=
  let n := c.toNat
  (0x9 ≤ n && n ≤ 0xD) || n == 0x20 || n == 0x85 || n == 0xA0 || n == 0x1680 ||
    (0x2000 ≤ n && n ≤ 0x200A) || n == 0x2028 || n == 0x2029 || n == 0x202F ||
    n == 0x205F || n == 0x3000

/-- `str::trim_start`: drop leading whitespace. -/
def rustTrimStart (s : Str) : Str := s.dropWhile rustIsWhitespace

/-- `str::trim_end`: drop trailing whitespace. -/
def rustTrimEnd (s : Str) : Str := (s.reverse.dropWhile rustIsWhitespace).reverse

/-- `str::trim`: drop leading and trailing whitespace. -/
def rustTrim (s : Str) : Str := rustTrimStart (rustTrimEnd s)

/-- Accumulator-passing worker for `split_whitespace`. -/
def splitWsAux : Str → Str → List Str
  | [], acc => if acc.isEmpty then [] else [acc.reverse]
  | c :: rest, acc =>
    if rustIsWhitespace c then
      if acc.isEmpty then splitWsAux rest [] else acc.reverse :: splitWsAux rest []
    else
      splitWsAux rest (c :: acc)

/-- `str::split_whitespace`: the whitespace-separated tokens of a string,
empty tokens omitted. -/
def splitWhitespace (s : Str) : List Str := splitWsAux s []

/-- `str::lines` helper: strip one trailing carriage return. -/
def stripCR (l : Str) : Str := if l.getLast? = some '\r' then l.dropLast else l

/-- `str::lines`: split on newline; a final trailing newline does not
produce an extra empty line; a trailing `\r` is stripped from each line. -/
def rustLines (s : Str) : List Str :=
  let parts := s.splitOn '\n'
  (if parts.getLast? = some [] then parts.dropLast else parts).map stripCR

/-- `str::replace` worker for a nonempty pattern: replace each
non-overlapping occurrence of `p :: ps`, scanning left to right. -/
def replaceCore (p : Char) (ps : List Char) (rep : Str) : Str → Str
  | [] => []
  | c :: rest =>
    if (p :: ps).isPrefixOf (c :: rest) then
      rep ++ replaceCore p ps rep (rest.drop ps.length)
    else
      c :: replaceCore p ps rep rest
termination_by s => s.length
decreasing_by
  · simp only [List.length_drop, List.length_cons]
    omega
  · simp only [List.length_cons]
    omega

/-- `str::replace(pat, rep)`: replace every non-overlapping occurrence of
`pat` by `rep`; an empty pattern matches at every character boundary. -/
def strReplace (s pat rep : Str) : Str :=
  match pat with
  | [] => rep ++ s.flatMap (fun c => c :: rep)
  | p :: ps => replaceCore p ps rep s

/-- Errors of the entry grammar (`SourceError` in the source; the I/O and
path-carrying variants concern filesystem wrappers and are not needed by
the pure grammar). -/
inductive SourceError where
  | MissingField (field : Str)
  | InvalidValue (field : Str) (value : Str)
deriving DecidableEq, Repr

/-- One apt source entry (`SourceEntry`). -/
structure SourceEntry where
  enabled : Bool
  source : Bool
  options : Option Str
  url : Str
  suite : Str
  components : List Str
deriving DecidableEq, Repr

/-- First index of a character in a string (`str::find` for a char pattern). -/
def findChar (c : Char) : Str → Option Nat
  | [] => none
  | a :: rest => if a = c then some 0 else (findChar c rest).map (· + 1)

/-- The options sub-grammar loop: keep consuming whitespace-delimited
tokens, concatenating them without reinserting whitespace, until one
contains `]`; returns the accumulated option text, the leftover text after
`]` in the final token (the attached url, if any), and the remaining
tokens. -/
def consumeOptions (acc : Str) :
    List Str → Except SourceError (Str × Option Str × List Str)
  | [] => .error (.MissingField "option".toList)
  | next :: rest =>
    match findChar ']' next with
    | some pos =>
      let acc := acc ++ next.take pos
      let leftover := if pos = next.length - 1 then none else some (next.drop (pos + 1))
      .ok (acc, leftover, rest)
    | none => consumeOptions (acc ++ next) rest

/-- `SourceEntry::from_str` after tokenization: parse the token list
produced by `split_whitespace`. -/
def SourceEntry.fromTokens : List Str → Except SourceError SourceEntry
  | [] => .error (.MissingField "source".toList)
  | tok :: fields =>
    let sourceR : Except SourceError Bool :=
      if tok = "deb".toList then .ok false
      else if tok = "deb-src".toList then .ok true
      else .error (.InvalidValue "source".toList tok)
    match sourceR with
    | .error e => .error e
    | .ok source =>
      match fields with
      | [] => .error (.MissingField "url".toList)
      | field :: fields =>
        let stepR : Except SourceError (Option Str × Option Str × List Str) :=
          if field.head? = some '[' then
            let field : Str := field.drop 1
            match findChar ']' field with
            | some pos =>
              if pos = field.length - 1 then
                .ok (some (field.take pos), none, fields)
              else
                .ok (some (field.take pos), some (field.drop (pos + 1)), fields)
            | none =>
              match consumeOptions field fields with
              | .error e => .error e
              | .ok (opts, leftover, fields) => .ok (some opts, leftover, fields)
          else
            .ok (none, some field, fields)
        match stepR with
        | .error e => .error e
        | .ok (opts, leftover, fields) =>
          let urlR : Except SourceError (Str × List Str) :=
            match leftover with
            | some u => .ok (u, fields)
            | none =>
              match fields with
              | [] => .error (.MissingField "url".toList)
              | u :: fields => .ok (u, fields)
          match urlR with
          | .error e => .error e
          | .ok (url, fields) =>
            let opts := if opts = some [] then none else opts
            match fields with
            | [] => .error (.MissingField "suite".toList)
            | suite :: components =>
              .ok { enabled := true, source := source, url := url, suite := suite,
                    components := components, options := opts }

/-- `SourceEntry::from_str`: whitespace-tokenize the line, then parse. -/
def SourceEntry.fromStr (line : Str) : Except SourceError SourceEntry :=
  SourceEntry.fromTokens (splitWhitespace line)

/-- `components.join(" ")`: space-joined component list. -/
def joinSpace : List Str → Str
  | [] => []
  | [c] => c
  | c :: rest => c ++ ' ' :: joinSpace rest

/-- `Display for SourceEntry`: `# ` prefix when disabled, then
`deb `/`deb-src `, then `[options] ` when present, then
`url suite comp1 comp2 ...`. -/
def SourceEntry.fmt (e : SourceEntry) : Str :=
  (if e.enabled then [] else "# ".toList) ++
    (if e.source then "deb-src ".toList else "deb ".toList) ++
    (match e.options with
     | some o => '[' :: o ++ "] ".toList
     | none => []) ++
    e.url ++ ' ' :: e.suite ++ ' ' :: joinSpace e.components

/-- One line of a source list (`SourceLine`). -/
inductive SourceLine where
  | Comment (text : Str)
  | Empty
  | Entry (entry : SourceEntry)
deriving DecidableEq, Repr

/-- `Display for SourceLine`. -/
def SourceLine.fmt : SourceLine → Str
  | .Comment c => c
  | .Empty => []
  | .Entry e => e.fmt

/-- `SourceLine::from_str`: trim; a line starting with `#` attempts the
entry parse on the *whole trimmed line* (marker included), falling back to
`Comment`; an empty trimmed line is `Empty`; anything else must parse as
an entry. -/
def SourceLine.fromStr (line : Str) : Except SourceError SourceLine :=
  let line := rustTrim line
  if line.head? = some '#' then
    let inner := rustTrim (line.drop 1)
    let entry := if ¬inner.isEmpty then (SourceEntry.fromStr line).toOption else none
    .ok (match entry with
      | none => .Comment line
      | some e => .Entry { e with enabled := false })
  else if line.isEmpty then
    .ok .Empty
  else
    (SourceEntry.fromStr line).map .Entry

/-- A single source-list file (`SourcesList`): its path and its lines. -/
structure SourcesList where
  path : Str
  lines : List SourceLine
deriving DecidableEq, Repr

/-- Whole-file parse error (`SourcesListError`). -/
inductive SourcesListError where
  | BadLine (line : Nat) (why : SourceError)
deriving DecidableEq, Repr

/-- Worker for `SourcesList::from_str`: classify each raw line in order,
skipping a parsed line structurally equal to one already collected. -/
def SourcesList.parseLines (no : Nat) (raws : List Str) (acc : List SourceLine) :
    Except SourcesListError (List SourceLine) :=
  match raws with
  | [] => .ok acc
  | raw :: rest =>
    match SourceLine.fromStr raw with
    | .error why => .error (.BadLine no why)
    | .ok l => SourcesList.parseLines (no + 1) rest (if acc.contains l then acc else acc ++ [l])

/-- `SourcesList::from_str`: split the input into physical lines and
collect their classifications (path left at its default). -/
def SourcesList.fromStr (input : Str) : Except SourcesListError SourcesList :=
  match SourcesList.parseLines 0 (rustLines input) [] with
  | .error e => .error e
  | .ok lines => .ok { path := [], lines := lines }

/-- `SourcesList::contains_entry`: position of the first line that is an
`Entry` whose url equals the given string. -/
def lineMatchesUrl (url : Str) : SourceLine → Bool
  | .Entry e => url = e.url
  | _ => false

/-- First position satisfying a predicate (`Iterator::position`). -/
def findPos (p : α → Bool) : List α → Option Nat
  | [] => none
  | a :: rest => if p a then some 0 else (findPos p rest).map (· + 1)

/-- `SourcesList::contains_entry`. -/
def SourcesList.containsEntry (sl : SourcesList) (entry : Str) : Option Nat :=
  findPos (lineMatchesUrl entry) sl.lines

/-- The collection of all source-list files (`SourcesLists`). The
`modified` dirty list stores `u16` values; they are modelled as naturals
that are always reduced modulo `2^16` at the point of the `as u16` cast. -/
structure SourcesLists where
  files : List SourcesList
  modified : List Nat
deriving DecidableEq, Repr

/-- The `pos as u16` cast: truncation modulo `2^16`. -/
def u16ofNat (n : Nat) : Nat := n % 65536

/-- `add_modified`: push the index unless it is already present. -/
def addModified (modified : List Nat) (list : Nat) : List Nat :=
  if modified.contains list then modified else modified ++ [list]

/-- `get_entry_mut` combined with the `enabled` assignment of
`repo_modify`: set the `enabled` flag of the first entry with the given
url, returning `none` when the file has no such entry. -/
def setFirstEntryEnabled (url : Str) (enabled : Bool) :
    List SourceLine → Option (List SourceLine)
  | [] => none
  | l :: rest =>
    match l with
    | .Entry e =>
      if url = e.url then some (.Entry { e with enabled := enabled } :: rest)
      else (setFirstEntryEnabled url enabled rest).map (l :: ·)
    | _ => (setFirstEntryEnabled url enabled rest).map (l :: ·)

/-- Worker for `repo_modify`: scan files in order for the first one
containing an entry with the given url. -/
def repoModifyGo (repo : Str) (enabled : Bool) :
    List SourcesList → Option (Nat × List SourcesList)
  | [] => none
  | f :: rest =>
    match setFirstEntryEnabled repo enabled f.lines with
    | some newLines => some (0, { f with lines := newLines } :: rest)
    | none => (repoModifyGo repo enabled rest).map (fun pr => (pr.1 + 1, f :: pr.2))

/-- `SourcesLists::repo_modify`: enable or disable the first entry across
all files matching the repo url; mark its file dirty; report whether a
match was found. -/
def SourcesLists.repoModify (s : SourcesLists) (repo : Str) (enabled : Bool) :
    SourcesLists × Bool :=
  match repoModifyGo repo enabled s.files with
  | some (pos, files) =>
    ({ files := files, modified := addModified s.modified (u16ofNat pos) }, true)
  | none => (s, false)

/-- Worker for `insert_entry`: find the file with the given path and
replace-or-append the entry there. -/
def insertEntryGo (path : Str) (e : SourceEntry) :
    List SourcesList → Option (Nat × List SourcesList)
  | [] => none
  | f :: rest =>
    if f.path = path then
      let newLines :=
        match f.containsEntry e.url with
        | some pos => f.lines.set pos (.Entry e)
        | none => f.lines ++ [.Entry e]
      some (0, { f with lines := newLines } :: rest)
    else
      (insertEntryGo path e rest).map (fun pr => (pr.1 + 1, f :: pr.2))

/-- `SourcesLists::insert_entry`: within the file whose path matches,
replace the first same-url entry in place or append; mark that file
dirty. When no file has the path, append a new file holding only this
entry (the dirty list is left untouched on this path, as in the source). -/
def SourcesLists.insertEntry (s : SourcesLists) (path : Str) (e : SourceEntry) :
    SourcesLists :=
  match insertEntryGo path e s.files with
  | some (id, files) =>
    { files := files, modified := addModified s.modified (u16ofNat id) }
  | none =>
    { files := s.files ++ [{ path := path, lines := [.Entry e] }], modified := s.modified }

/-- Worker for `remove_entry`: walk the files with their index, removing
the first matching line of each file that has one and marking it dirty. -/
def removeEntryGo (repo : Str) :
    List SourcesList → Nat → List Nat → List SourcesList × List Nat
  | [], _, modified => ([], modified)
  | f :: rest, id, modified =>
    match f.containsEntry repo with
    | some line =>
      let out := removeEntryGo repo rest (id + 1) (addModified modified (u16ofNat id))
      ({ f with lines := f.lines.eraseIdx line } :: out.1, out.2)
    | none =>
      let out := removeEntryGo repo rest (id + 1) modified
      (f :: out.1, out.2)

/-- `SourcesLists::remove_entry`. -/
def SourcesLists.removeEntry (s : SourcesLists) (repo : Str) : SourcesLists :=
  let out := removeEntryGo repo s.files 0 s.modified
  { files := out.1, modified := out.2 }

/-- The per-line mutation step of the dist-upgrade transaction (`apply` in
`dist_upgrade`): an entry whose url starts with `http` and whose suite
starts with `from_suite` has every occurrence of `from_suite` in its suite
replaced by `to_suite`; every other line is untouched. -/
def distUpgradeLine (fromSuite toSuite : Str) : SourceLine → SourceLine
  | .Entry e =>
    if "http".toList.isPrefixOf e.url && fromSuite.isPrefixOf e.suite then
      .Entry { e with suite := strReplace e.suite fromSuite toSuite }
    else
      .Entry e
  | l => l

/-- The in-memory effect of `SourcesLists::dist_upgrade`'s `apply` loop on
the collection (the interleaved backup-file and line writes are
filesystem effects; the dirty list is untouched by this operation). -/
def SourcesLists.distUpgradeApply (s : SourcesLists) (fromSuite toSuite : Str) :
    SourcesLists :=
  { files := s.files.map fun f => { f with lines := f.lines.map (distUpgradeLine fromSuite toSuite) },
    modified := s.modified }

/-- The iteration of `write_sync`'s `drain(..).map(persist).collect()`:
attempt each drained index in order, stopping at the first persist
failure; returns the successfully persisted indices and the first failing
index, if any. `ok` is the persistence oracle (whether writing file `id`
succeeds). -/
def writeSyncAttempts (ok : Nat → Bool) : List Nat → List Nat × Option Nat
  | [] => ([], none)
  | id :: rest =>
    if ok id then
      let out := writeSyncAttempts ok rest
      (id :: out.1, out.2)
    else
      ([], some id)

/-- `SourcesLists::write_sync`: drain the whole dirty list (dropping the
`drain` iterator removes every drained element even after an early
failure, so `modified` is empty afterwards in all cases), persisting files
in dirty order until the first failure. Returns the persisted indices, the
first failing index, and the resulting collection state. -/
def SourcesLists.writeSync (ok : Nat → Bool) (s : SourcesLists) :
    (List Nat × Option Nat) × SourcesLists :=
  (writeSyncAttempts ok s.modified, { s with modified := [] })

/-- The collection invariant of the dirty list: no duplicate indices, and
every index is a valid position into `files`. -/
def SourcesLists.dirtyInv (s : SourcesLists) : Prop :=
  s.modified.Nodup ∧ ∀ m ∈ s.modified, m < s.files.length

/-! ## Concrete evaluations settling the example-based claims -/

/-- C1: the spec says a `#`-marked line whose stripped remainder parses as
an entry classifies as a disabled Entry. The classifier instead hands the
*whole* trimmed line (marker included) to the entry parser, whose first
token then starts with `#` and is rejected, so every `#` line falls back
to `Comment`. This theorem evaluates the classifier at the spec's own
example: the remainder parses as an entry (second conjunct), yet the line
classifies as a `Comment`, not as a disabled `Entry` (first conjunct). -/
theorem c1_hash_entry_line_classifies_as_comment :
    SourceLine.fromStr "# deb http://x/ cosmic main".toList =
      .ok (.Comment "# deb http://x/ cosmic main".toList) ∧
    SourceEntry.fromStr "deb http://x/ cosmic main".toList =
      .ok { enabled := true, source := false, options := none,
            url := "http://x/".toList, suite := "cosmic".toList,
            components := ["main".toList] } := by
  constructor <;> decide

/-- C5: the five bracket/whitespace placements of the options list all
parse to the identical entry. -/
theorem c5_bracket_placement_equivalence :
    (SourceEntry.fromStr "deb [ arch=amd64 ] URL S C".toList =
      .ok { enabled := true, source := false, options := some "arch=amd64".toList,
            url := "URL".toList, suite := "S".toList, components := ["C".toList] }) ∧
    (SourceEntry.fromStr "deb [arch=amd64 ] URL S C".toList =
      .ok { enabled := true, source := false, options := some "arch=amd64".toList,
            url := "URL".toList, suite := "S".toList, components := ["C".toList] }) ∧
    (SourceEntry.fromStr "deb [ arch=amd64] URL S C".toList =
      .ok { enabled := true, source := false, options := some "arch=amd64".toList,
            url := "URL".toList, suite := "S".toList, components := ["C".toList] }) ∧
    (SourceEntry.fromStr "deb [arch=amd64]URL S C".toList =
      .ok { enabled := true, source := false, options := some "arch=amd64".toList,
            url := "URL".toList, suite := "S".toList, components := ["C".toList] }) ∧
    (SourceEntry.fromStr "deb [ arch=amd64 ]URL S C".toList =
      .ok { enabled := true, source := false, options := some "arch=amd64".toList,
            url := "URL".toList, suite := "S".toList, components := ["C".toList] }) := by
  refine ⟨by decide, by decide, by decide, by decide, by decide⟩

/-- C6 counterexample: loading deduplicates structurally equal lines. A
text of two blank physical lines yields a single `Empty` line, not two. -/
theorem c6_counterexample_duplicate_lines_collapsed :
    SourcesList.fromStr "\n\n".toList = .ok { path := [], lines := [.Empty] } ∧
    SourcesList.fromStr "\n\n".toList ≠ .ok { path := [], lines := [.Empty, .Empty] } := by
  constructor <;> decide

/-- C7 counterexample: inserting into a collection with no file of the
target path creates the new file but does *not* mark it dirty — the
dirty list stays empty, refuting "in every case the affected File is
marked dirty". -/
theorem c7_counterexample_created_file_not_marked_dirty :
    (SourcesLists.insertEntry { files := [], modified := [] } "/etc/apt/x.list".toList
        { enabled := true, source := false, options := none, url := "http://x/".toList,
          suite := "cosmic".toList, components := ["main".toList] }) =
      { files := [{ path := "/etc/apt/x.list".toList,
                    lines := [.Entry { enabled := true, source := false, options := none,
                                       url := "http://x/".toList, suite := "cosmic".toList,
                                       components := ["main".toList] }] }],
        modified := [] } ∧
    ¬ 0 ∈ (SourcesLists.insertEntry { files := [], modified := [] } "/etc/apt/x.list".toList
        { enabled := true, source := false, options := none, url := "http://x/".toList,
          suite := "cosmic".toList, components := ["main".toList] }).modified := by
  constructor <;> decide

/-- C8 counterexample: a file holding two entries with the same url (and
different suites) still contains a matching entry after `remove_entry`,
because only the first matching line of each file is removed — the
position lookup returns `some 0`, not `none`. -/
theorem c8_counterexample_second_same_url_entry_survives_removal :
    ((SourcesLists.removeEntry
        { files := [{ path := "/s".toList,
                      lines := [.Entry { enabled := true, source := false, options := none,
                                         url := "http://u/".toList, suite := "a".toList,
                                         components := [] },
                                .Entry { enabled := true, source := false, options := none,
                                         url := "http://u/".toList, suite := "b".toList,
                                         components := [] }] }],
          modified := [] } "http://u/".toList).files.map
      (fun f => f.containsEntry "http://u/".toList)) = [some 0] ∧
    ¬ (some 0 = (none : Option Nat)) := by
  constructor <;> decide

/-- C4 counterexample: an entry whose url contains a space (not a control
character) does not survive the format/parse round trip: the formatted
text re-tokenizes with the url split in two. -/
theorem c4_counterexample_space_in_url_breaks_roundtrip :
    SourceLine.fromStr (SourceEntry.fmt
        { enabled := true, source := false, options := none, url := "a b".toList,
          suite := "cosmic".toList, components := ["main".toList] }) ≠
      .ok (.Entry { enabled := true, source := false, options := none, url := "a b".toList,
                    suite := "cosmic".toList, components := ["main".toList] }) ∧
    SourceLine.fromStr (SourceEntry.fmt
        { enabled := true, source := false, options := none, url := "a b".toList,
          suite := "cosmic".toList, components := ["main".toList] }) =
      .ok (.Entry { enabled := true, source := false, options := none, url := "a".toList,
                    suite := "b".toList,
                    components := ["cosmic".toList, "main".toList] }) := by
  constructor <;> decide

/-- C3 counterexample: with three dirty files and the persist of the
middle one failing, `write_sync` stops before file 2, yet the dirty list
ends empty — the index of the never-attempted file 2 is *not* retained. -/
theorem c3_counterexample_failure_still_clears_dirty_list :
    (SourcesLists.writeSync (fun i => i != 1)
        { files := [{ path := "/a".toList, lines := [] },
                    { path := "/b".toList, lines := [] },
                    { path := "/c".toList, lines := [] }],
          modified := [0, 1, 2] }) =
      (([0], some 1),
       { files := [{ path := "/a".toList, lines := [] },
                   { path := "/b".toList, lines := [] },
                   { path := "/c".toList, lines := [] }],
         modified := [] }) ∧
    ¬ 2 ∈ (SourcesLists.writeSync (fun i => i != 1)
        { files := [{ path := "/a".toList, lines := [] },
                    { path := "/b".toList, lines := [] },
                    { path := "/c".toList, lines := [] }],
          modified := [0, 1, 2] }).2.modified := by
  constructor <;> decide

/-! ## General lemmas -/

/-- Replacing occurrences of a pattern by itself is the identity
(worker form, by strong induction on the scanned suffix). -/
theorem replaceCore_self_aux (p : Char) (ps : List Char) :
    ∀ (n : Nat) (s : Str), s.length ≤ n → replaceCore p ps (p :: ps) s = s := by
  intro n
  induction n with
  | zero =>
    intro s hs
    have hnil : s = [] := List.eq_nil_of_length_eq_zero (Nat.le_zero.mp hs)
    subst hnil
    simp [replaceCore]
  | succ n ih =>
    intro s hs
    match s with
    | [] => simp [replaceCore]
    | c :: rest =>
      rw [replaceCore]
      by_cases h : (p :: ps).isPrefixOf (c :: rest) = true
      · rw [if_pos h]
        obtain ⟨t, ht⟩ := List.isPrefixOf_iff_prefix.mp h
        rw [List.cons_append] at ht
        injection ht with h1 h2
        have hdrop : rest.drop ps.length = t := by
          rw [← h2]; exact List.drop_left ps t
        rw [hdrop]
        have hlt : t.length ≤ n := by
          have hlen := congrArg List.length h2
          simp only [List.length_append] at hlen
          simp only [List.length_cons] at hs
          omega
        rw [ih t hlt, h1, List.cons_append, h2]
      · rw [if_neg h]
        have hrest : rest.length ≤ n := by
          simp only [List.length_cons] at hs
          omega
        rw [ih rest hrest]

/-- `str::replace` with a nonempty pattern equal to the replacement is the
identity. -/
theorem strReplace_self (s pat : Str) (hp : pat ≠ []) : strReplace s pat pat = s := by
  match pat, hp with
  | p :: ps, _ => exact replaceCore_self_aux p ps s.length s le_rfl

/-- The dist-upgrade step leaves every line intact when renaming a
nonempty suite to itself. -/
theorem distUpgradeLine_self (d : Str) (hd : d ≠ []) (l : SourceLine) :
    distUpgradeLine d d l = l := by
  cases l with
  | Entry e =>
    rw [distUpgradeLine]
    by_cases h : ("http".toList.isPrefixOf e.url && d.isPrefixOf e.suite) = true
    · rw [if_pos h, strReplace_self e.suite d hd]
    · rw [if_neg h]
  | Comment c => rfl
  | Empty => rfl

/-- C2: during the suite-rename transaction, an entry line whose url
starts with `http` and whose suite starts with `fromSuite` gets its suite
substring-replaced (all occurrences) with every other field kept; every
other line, the file order and the dirty list are unchanged; renaming a
nonempty suite such as `disco` to itself is the identity on the whole
collection. -/
theorem c2_dist_upgrade_rewrites_exactly_matching_entries
    (s : SourcesLists) (fromSuite toSuite : Str) :
    (s.distUpgradeApply fromSuite toSuite).modified = s.modified ∧
    (s.distUpgradeApply fromSuite toSuite).files.length = s.files.length ∧
    (∀ (i j : Nat), ((s.distUpgradeApply fromSuite toSuite).files[i]?.bind fun f => f.lines[j]?) =
      (s.files[i]?.bind fun f => f.lines[j]?).map fun l =>
        match l with
        | .Entry e =>
          if "http".toList.isPrefixOf e.url && fromSuite.isPrefixOf e.suite then
            .Entry ⟨e.enabled, e.source, e.options, e.url,
                    strReplace e.suite fromSuite toSuite, e.components⟩
          else .Entry e
        | other => other) ∧
    s.distUpgradeApply "disco".toList "disco".toList = s := by
  refine ⟨rfl, by simp [SourcesLists.distUpgradeApply], ?_, ?_⟩
  · intro i j
    have hline : ∀ l : SourceLine, distUpgradeLine fromSuite toSuite l =
        match l with
        | .Entry e =>
          if "http".toList.isPrefixOf e.url && fromSuite.isPrefixOf e.suite then
            .Entry ⟨e.enabled, e.source, e.options, e.url,
                    strReplace e.suite fromSuite toSuite, e.components⟩
          else .Entry e
        | other => other := by
      intro l
      cases l with
      | Entry e => rw [distUpgradeLine]
      | Comment c => rfl
      | Empty => rfl
    rw [SourcesLists.distUpgradeApply]
    cases hfi : s.files[i]? with
    | none => simp [List.getElem?_map, hfi]
    | some f =>
      simp only [List.getElem?_map, hfi, Option.map_some, Option.bind_some]
      cases hlj : f.lines[j]? with
      | none => simp [List.getElem?_map, hlj]
      | some l => simp [List.getElem?_map, hlj, hline l]
  · have hid : ∀ l : SourceLine, distUpgradeLine "disco".toList "disco".toList l = l :=
      distUpgradeLine_self "disco".toList (by decide)
    have hlines : ∀ ls : List SourceLine,
        ls.map (distUpgradeLine "disco".toList "disco".toList) = ls := by
      intro ls
      induction ls with
      | nil => rfl
      | cons a t iht => rw [List.map_cons, hid a, iht]
    rw [SourcesLists.distUpgradeApply]
    cases s with
    | mk files modified =>
      simp only [SourcesLists.mk.injEq, and_true]
      induction files with
      | nil => rfl
      | cons f fs ihf =>
        rw [List.map_cons, ihf]
        cases f with
        | mk path lines =>
          show SourcesList.mk path (lines.map (distUpgradeLine "disco".toList "disco".toList)) :: fs
              = SourcesList.mk path lines :: fs
          rw [hlines lines]

/-- The drained write loop persists exactly the longest prefix of dirty
indices whose persist succeeds, and reports the first failing index. -/
theorem writeSyncAttempts_eq (ok : Nat → Bool) (l : List Nat) :
    writeSyncAttempts ok l = (l.takeWhile ok, (l.dropWhile ok).head?) := by
  induction l with
  | nil => rfl
  | cons id rest ih =>
    by_cases h : ok id = true
    · rw [writeSyncAttempts, if_pos h, ih, List.takeWhile_cons, if_pos h,
        List.dropWhile_cons, if_pos h]
    · rw [writeSyncAttempts, if_neg h, List.takeWhile_cons, if_neg h,
        List.dropWhile_cons, if_neg h, List.head?_cons]

/-- C3 amended: `write_sync` persists the dirty files in order up to the
first failure (files after it are not attempted, so the persisted indices
are the longest successful prefix and the reported failure is the first
failing index), the in-memory files are untouched — but the dirty list is
emptied in every case, including after a failure: indices of files whose
write was never attempted are removed as well. -/
theorem c3_amended_write_sync_always_empties_dirty_list
    (ok : Nat → Bool) (s : SourcesLists) :
    (SourcesLists.writeSync ok s).2.modified = [] ∧
    (SourcesLists.writeSync ok s).2.files = s.files ∧
    (SourcesLists.writeSync ok s).1.1 = s.modified.takeWhile ok ∧
    (SourcesLists.writeSync ok s).1.2 = (s.modified.dropWhile ok).head? := by
  refine ⟨rfl, rfl, ?_, ?_⟩
  · rw [SourcesLists.writeSync, writeSyncAttempts_eq]
  · rw [SourcesLists.writeSync, writeSyncAttempts_eq]

/-- Dirty indices recorded by `remove_entry`'s walk are either inherited
or the truncation of a file index at most `id + files.length`. -/
theorem removeEntryGo_modified_mem (repo : Str) :
    ∀ (files : List SourcesList) (id : Nat) (modified : List Nat),
      ∀ x ∈ (removeEntryGo repo files id modified).2,
        x ∈ modified ∨ ∃ k, k < files.length ∧ x = u16ofNat (id + k) := by
  intro files
  induction files with
  | nil => intro id modified x hx; exact Or.inl hx
  | cons f rest ih =>
    intro id modified x hx
    rw [removeEntryGo] at hx
    cases hc : f.containsEntry repo with
    | some line =>
      rw [hc] at hx
      rcases ih (id + 1) (addModified modified (u16ofNat id)) x hx with hm | ⟨k, hk, hxk⟩
      · rw [addModified] at hm
        by_cases hmem : modified.contains (u16ofNat id) = true
        · rw [if_pos hmem] at hm
          exact Or.inl hm
        · rw [if_neg hmem] at hm
          rcases List.mem_append.mp hm with h1 | h2
          · exact Or.inl h1
          · refine Or.inr ⟨0, by simp, ?_⟩
            simpa using List.mem_singleton.mp h2
      · refine Or.inr ⟨k + 1, ?_, ?_⟩
        · simp only [List.length_cons]
          omega
        · rw [hxk]
          congr 1
          omega
    | none =>
      rw [hc] at hx
      rcases ih (id + 1) modified x hx with hm | ⟨k, hk, hxk⟩
      · exact Or.inl hm
      · refine Or.inr ⟨k + 1, ?_, ?_⟩
        · simp only [List.length_cons]
          omega
        · rw [hxk]
          congr 1
          omega

/-- C10: dirty indices pass through the 16-bit cast `u16ofNat`, i.e.
`repo_modify` records the matched file position reduced modulo `2^16`,
and every index `remove_entry` adds to the dirty list is the truncation
of a true file position; for positions below `2^16` the truncation is the
identity, while any position at or above `2^16` is recorded as a strictly
smaller (hence different) file position. -/
theorem c10_dirty_indices_are_mod_65536
    : (∀ (s : SourcesLists) (repo : Str) (enabled : Bool),
        ((s.repoModify repo enabled).1).modified =
          match repoModifyGo repo enabled s.files with
          | some (pos, _) => addModified s.modified (pos % 65536)
          | none => s.modified) ∧
      (∀ (s : SourcesLists) (repo : Str) (x : Nat),
        x ∈ (s.removeEntry repo).modified →
          x ∈ s.modified ∨ ∃ k, k < s.files.length ∧ x = k % 65536) ∧
      (∀ i, i < 65536 → u16ofNat i = i) ∧
      (∀ i, 65536 ≤ i → u16ofNat i ≠ i ∧ u16ofNat i < i) := by
  refine ⟨?_, ?_, ?_, ?_⟩
  · intro s repo enabled
    rw [SourcesLists.repoModify]
    cases h : repoModifyGo repo enabled s.files with
    | some pr => rfl
    | none => rfl
  · intro s repo x hx
    rcases removeEntryGo_modified_mem repo s.files 0 s.modified x hx with hm | ⟨k, hk, hxk⟩
    · exact Or.inl hm
    · exact Or.inr ⟨k, hk, by simpa [u16ofNat] using hxk⟩
  · intro i hi
    exact Nat.mod_eq_of_lt hi
  · intro i hi
    have hlt : u16ofNat i < i := by
      rw [u16ofNat]
      exact lt_of_lt_of_le (Nat.mod_lt i (by omega)) hi
    exact ⟨Nat.ne_of_lt hlt, hlt⟩

/-- Witness for C10: a collection whose only match sits at position 0, a
small index left intact by the cast, and a large index truncated to a
different, smaller position. -/
theorem c10_witness :
    ((SourcesLists.repoModify
        { files := [{ path := "/s".toList,
                      lines := [.Entry { enabled := true, source := false, options := none,
                                         url := "http://u/".toList, suite := "a".toList,
                                         components := [] }] }],
          modified := [] } "http://u/".toList false).1).modified =
      (match repoModifyGo "http://u/".toList false
          [{ path := "/s".toList,
             lines := [.Entry { enabled := true, source := false, options := none,
                                url := "http://u/".toList, suite := "a".toList,
                                components := [] }] }] with
        | some (pos, _) => addModified [] (pos % 65536)
        | none => ([] : List Nat)) ∧
    (0 ∈ ([] : List Nat) ∨ ∃ k, k < 1 ∧ 0 = k % 65536) ∧
    u16ofNat 3 = 3 ∧ u16ofNat 70000 ≠ 70000 ∧ u16ofNat 70000 < 70000 := by
  refine ⟨c10_dirty_indices_are_mod_65536.1 _ _ _,
    c10_dirty_indices_are_mod_65536.2.1
      { files := [{ path := "/s".toList,
                    lines := [.Entry { enabled := true, source := false, options := none,
                                       url := "http://u/".toList, suite := "a".toList,
                                       components := [] }] }],
        modified := [] } "http://u/".toList 0 (by decide),
    c10_dirty_indices_are_mod_65536.2.2.1 3 (by decide),
    (c10_dirty_indices_are_mod_65536.2.2.2 70000 (by decide)).1,
    (c10_dirty_indices_are_mod_65536.2.2.2 70000 (by decide)).2⟩

/-- `add_modified` membership: an element of the extended dirty list is an
old element or the added index. -/
theorem mem_addModified {m : List Nat} {v x : Nat} (hx : x ∈ addModified m v) :
    x ∈ m ∨ x = v := by
  rw [addModified] at hx
  by_cases hc : m.contains v = true
  · rw [if_pos hc] at hx
    exact Or.inl hx
  · rw [if_neg hc] at hx
    rcases List.mem_append.mp hx with h | h
    · exact Or.inl h
    · exact Or.inr (List.mem_singleton.mp h)

/-- `add_modified` preserves freedom from duplicates. -/
theorem addModified_nodup {m : List Nat} {v : Nat} (h : m.Nodup) :
    (addModified m v).Nodup := by
  rw [addModified]
  by_cases hc : m.contains v = true
  · rw [if_pos hc]
    exact h
  · rw [if_neg hc]
    refine List.nodup_append.mpr ⟨h, List.nodup_singleton v, ?_⟩
    intro a ha hav
    rw [List.mem_singleton.mp hav] at ha
    exact hc (List.elem_iff.mpr ha)

/-- `findPos` only returns positions inside the list. -/
theorem findPos_lt_length {p : α → Bool} :
    ∀ {l : List α} {i : Nat}, findPos p l = some i → i < l.length := by
  intro l
  induction l with
  | nil => intro i h; simp [findPos] at h
  | cons a rest ih =>
    intro i h
    rw [findPos] at h
    by_cases hp : p a = true
    · rw [if_pos hp] at h
      cases h
      simp
    · rw [if_neg hp] at h
      cases hi : findPos p rest with
      | none => rw [hi] at h; cases h
      | some k =>
        rw [hi] at h
        cases h
        have := ih hi
        simp only [List.length_cons]
        omega

/-- `findPos` stays put when the found position is overwritten with
another element satisfying the predicate. -/
theorem findPos_set {p : α → Bool} {a : α} (hpa : p a = true) :
    ∀ {l : List α} {i : Nat}, findPos p l = some i → findPos p (l.set i a) = some i := by
  intro l
  induction l with
  | nil => intro i h; simp [findPos] at h
  | cons x rest ih =>
    intro i h
    rw [findPos] at h
    by_cases hp : p x = true
    · rw [if_pos hp] at h
      cases h
      rw [List.set_cons_zero, findPos, if_pos hpa]
    · rw [if_neg hp] at h
      cases hi : findPos p rest with
      | none => rw [hi] at h; cases h
      | some k =>
        rw [hi] at h
        cases h
        rw [List.set_cons_succ, findPos, if_neg hp, ih hi]
        rfl

/-- Appending an element satisfying the predicate to a list with no match
makes its position the old length. -/
theorem findPos_append_of_none {p : α → Bool} {a : α} (hpa : p a = true) :
    ∀ {l : List α}, findPos p l = none → findPos p (l ++ [a]) = some l.length := by
  intro l
  induction l with
  | nil => intro _; simp [findPos, hpa]
  | cons x rest ih =>
    intro h
    rw [findPos] at h
    by_cases hp : p x = true
    · rw [if_pos hp] at h; cases h
    · rw [if_neg hp] at h
      cases hi : findPos p rest with
      | some k => rw [hi] at h; cases h
      | none =>
        rw [List.cons_append, findPos, if_neg hp, ih hi]
        rfl

/-- A list with no element satisfying the predicate has no found position. -/
theorem findPos_eq_none_of_countP_zero {p : α → Bool} :
    ∀ {l : List α}, l.countP p = 0 → findPos p l = none := by
  intro l
  induction l with
  | nil => intro _; rfl
  | cons x rest ih =>
    intro h
    rw [List.countP_cons] at h
    by_cases hp : p x = true
    · rw [if_pos hp] at h; omega
    · rw [if_neg hp] at h
      rw [findPos, if_neg hp, ih (by omega)]
      rfl

/-- Erasing the first found match of a predicate leaves no match when the
list held at most one. -/
theorem findPos_eraseIdx_of_countP_le_one {p : α → Bool} :
    ∀ {l : List α} {i : Nat}, l.countP p ≤ 1 → findPos p l = some i →
      findPos p (l.eraseIdx i) = none := by
  intro l
  induction l with
  | nil => intro i _ h; simp [findPos] at h
  | cons x rest ih =>
    intro i hcount h
    rw [findPos] at h
    rw [List.countP_cons] at hcount
    by_cases hp : p x = true
    · rw [if_pos hp] at h
      cases h
      rw [if_pos hp] at hcount
      rw [List.eraseIdx_cons_zero]
      exact findPos_eq_none_of_countP_zero (by omega)
    · rw [if_neg hp] at h
      cases hi : findPos p rest with
      | none => rw [hi] at h; cases h
      | some k =>
        rw [hi] at h
        cases h
        rw [if_neg hp] at hcount
        rw [List.eraseIdx_cons_succ, findPos, if_neg hp, ih (by omega) hi]
        rfl

/-- The per-file effect of `remove_entry`. -/
def removeOne (repo : Str) (f : SourcesList) : SourcesList :=
  match f.containsEntry repo with
  | some line => { f with lines := f.lines.eraseIdx line }
  | none => f

/-- `remove_entry`'s walk maps each file through `removeOne`. -/
theorem removeEntryGo_files_map (repo : Str) :
    ∀ (files : List SourcesList) (id : Nat) (m : List Nat),
      (removeEntryGo repo files id m).1 = files.map (removeOne repo) := by
  intro files
  induction files with
  | nil => intro id m; rfl
  | cons f rest ih =>
    intro id m
    cases hc : f.containsEntry repo with
    | some line =>
      simp only [removeEntryGo, hc, List.map_cons, removeOne]
      rw [ih]
    | none =>
      simp only [removeEntryGo, hc, List.map_cons, removeOne]
      rw [ih]

/-- `remove_entry`'s walk leaves the dirty list free of duplicates. -/
theorem removeEntryGo_modified_nodup (repo : Str) :
    ∀ (files : List SourcesList) (id : Nat) (m : List Nat),
      m.Nodup → (removeEntryGo repo files id m).2.Nodup := by
  intro files
  induction files with
  | nil => intro id m hm; exact hm
  | cons f rest ih =>
    intro id m hm
    cases hc : f.containsEntry repo with
    | some line =>
      simp only [removeEntryGo, hc]
      exact ih (id + 1) _ (addModified_nodup hm)
    | none =>
      simp only [removeEntryGo, hc]
      exact ih (id + 1) m hm

/-- `insert_entry`'s scan: when no file has the target path, the scan
finds nothing. -/
theorem insertEntryGo_eq_none (path : Str) (e : SourceEntry) :
    ∀ {files : List SourcesList}, (∀ f ∈ files, f.path ≠ path) →
      insertEntryGo path e files = none := by
  intro files
  induction files with
  | nil => intro _; rfl
  | cons f rest ih =>
    intro h
    rw [insertEntryGo, if_neg (h f (by simp)), ih (fun g hg => h g (by simp [hg]))]
    rfl

/-- `insert_entry`'s scan finds the first file whose path matches and
rewrites exactly that file in place. -/
theorem insertEntryGo_eq_some (path : Str) (e : SourceEntry) :
    ∀ {files : List SourcesList} {i : Nat} {f : SourcesList},
      findPos (fun f => f.path = path) files = some i → files[i]? = some f →
      insertEntryGo path e files = some (i, files.set i
        { f with lines :=
            match f.containsEntry e.url with
            | some pos => f.lines.set pos (.Entry e)
            | none => f.lines ++ [.Entry e] }) := by
  intro files
  induction files with
  | nil => intro i f h _; simp [findPos] at h
  | cons g rest ih =>
    intro i f h hget
    rw [findPos] at h
    by_cases hp : (decide (g.path = path)) = true
    · rw [if_pos hp] at h
      cases h
      rw [List.getElem?_cons_zero] at hget
      cases hget
      rw [insertEntryGo, if_pos (of_decide_eq_true hp), List.set_cons_zero]
    · rw [if_neg hp] at h
      cases hi : findPos (fun f => f.path = path) rest with
      | none => rw [hi] at h; cases h
      | some k =>
        rw [hi] at h
        cases h
        rw [List.getElem?_cons_succ] at hget
        rw [insertEntryGo, if_neg (fun hq => hp (decide_eq_true hq)), ih hi hget,
          List.set_cons_succ]
        rfl

/-- The `insert_entry` scan returns a position inside the collection and
preserves the number of files. -/
theorem insertEntryGo_some_bounds (path : Str) (e : SourceEntry) :
    ∀ {files : List SourcesList} {i : Nat} {files' : List SourcesList},
      insertEntryGo path e files = some (i, files') →
      i < files.length ∧ files'.length = files.length := by
  intro files
  induction files with
  | nil => intro i files' h; cases h
  | cons f rest ih =>
    intro i files' h
    rw [insertEntryGo] at h
    by_cases hp : f.path = path
    · rw [if_pos hp] at h
      cases h
      simp
    · rw [if_neg hp] at h
      cases hrec : insertEntryGo path e rest with
      | none => rw [hrec] at h; cases h
      | some pr =>
        rw [hrec] at h
        cases h
        obtain ⟨h1, h2⟩ := ih hrec
        constructor
        · simp only [List.length_cons]
          omega
        · simp only [List.length_cons, h2]

/-- The `repo_modify` scan returns a position inside the collection and
preserves the number of files. -/
theorem repoModifyGo_some_bounds (repo : Str) (enabled : Bool) :
    ∀ {files : List SourcesList} {pos : Nat} {files' : List SourcesList},
      repoModifyGo repo enabled files = some (pos, files') →
      pos < files.length ∧ files'.length = files.length := by
  intro files
  induction files with
  | nil => intro pos files' h; cases h
  | cons f rest ih =>
    intro pos files' h
    rw [repoModifyGo] at h
    cases hs : setFirstEntryEnabled repo enabled f.lines with
    | some newLines =>
      rw [hs] at h
      cases h
      simp
    | none =>
      rw [hs] at h
      cases hrec : repoModifyGo repo enabled rest with
      | none => rw [hrec] at h; cases h
      | some pr =>
        rw [hrec] at h
        cases h
        obtain ⟨h1, h2⟩ := ih hrec
        constructor
        · simp only [List.length_cons]
          omega
        · simp only [List.length_cons, h2]

/-- C9: every collection operation — `insert_entry`, `remove_entry`,
`repo_modify` (enable/disable), the in-memory part of the suite-rename
transaction, and `write_sync` — preserves the dirty-list invariant: no
duplicate indices, every index a valid file position. -/
theorem c9_operations_preserve_dirty_invariant
    (s : SourcesLists) (h : s.dirtyInv) (path repo fromSuite toSuite : Str)
    (e : SourceEntry) (enabled : Bool) (ok : Nat → Bool) :
    (s.insertEntry path e).dirtyInv ∧
    (s.removeEntry repo).dirtyInv ∧
    ((s.repoModify repo enabled).1).dirtyInv ∧
    (s.distUpgradeApply fromSuite toSuite).dirtyInv ∧
    ((SourcesLists.writeSync ok s).2).dirtyInv := by
  obtain ⟨hnd, hbound⟩ := h
  refine ⟨?_, ?_, ?_, ?_, ?_⟩
  · rw [SourcesLists.insertEntry]
    cases hgo : insertEntryGo path e s.files with
    | some pr =>
      obtain ⟨hi, hlen⟩ := insertEntryGo_some_bounds path e hgo
      refine ⟨addModified_nodup hnd, ?_⟩
      intro m hm
      rcases mem_addModified hm with hmem | hval
      · have := hbound m hmem
        simp only [hlen]
        omega
      · have : u16ofNat pr.1 ≤ pr.1 := Nat.mod_le _ _
        simp only [hlen]
        omega
    | none =>
      refine ⟨hnd, ?_⟩
      intro m hm
      have := hbound m hm
      simp only [List.length_append, List.length_cons, List.length_nil]
      omega
  · rw [SourcesLists.removeEntry]
    refine ⟨removeEntryGo_modified_nodup repo s.files 0 s.modified hnd, ?_⟩
    intro m hm
    have hlen : (removeEntryGo repo s.files 0 s.modified).1.length = s.files.length := by
      rw [removeEntryGo_files_map]
      exact List.length_map _ _
    rcases removeEntryGo_modified_mem repo s.files 0 s.modified m hm with hmem | ⟨k, hk, hval⟩
    · rw [hlen]
      exact hbound m hmem
    · rw [hlen, hval]
      have : u16ofNat (0 + k) ≤ 0 + k := Nat.mod_le _ _
      omega
  · rw [SourcesLists.repoModify]
    cases hgo : repoModifyGo repo enabled s.files with
    | some pr =>
      obtain ⟨hi, hlen⟩ := repoModifyGo_some_bounds repo enabled hgo
      refine ⟨addModified_nodup hnd, ?_⟩
      intro m hm
      rcases mem_addModified hm with hmem | hval
      · have := hbound m hmem
        simp only [hlen]
        omega
      · have : u16ofNat pr.1 ≤ pr.1 := Nat.mod_le _ _
        simp only [hlen]
        omega
    | none => exact ⟨hnd, hbound⟩
  · refine ⟨hnd, ?_⟩
    intro m hm
    have := hbound m hm
    simp only [SourcesLists.distUpgradeApply, List.length_map]
    omega
  · exact ⟨List.nodup_nil, by intro m hm; cases hm⟩

/-- Witness for C9: the invariant is preserved starting from a concrete
one-file collection with a singleton dirty list. -/
theorem c9_witness :
    (SourcesLists.insertEntry { files := [{ path := "/s".toList, lines := [] }], modified := [0] }
      "/s".toList { enabled := true, source := false, options := none, url := "u".toList,
                    suite := "a".toList, components := [] }).dirtyInv ∧
    (SourcesLists.removeEntry { files := [{ path := "/s".toList, lines := [] }], modified := [0] }
      "u".toList).dirtyInv ∧
    ((SourcesLists.repoModify { files := [{ path := "/s".toList, lines := [] }], modified := [0] }
      "u".toList true).1).dirtyInv ∧
    (SourcesLists.distUpgradeApply { files := [{ path := "/s".toList, lines := [] }], modified := [0] }
      "a".toList "b".toList).dirtyInv ∧
    ((SourcesLists.writeSync (fun _ => true)
      { files := [{ path := "/s".toList, lines := [] }], modified := [0] }).2).dirtyInv :=
  c9_operations_preserve_dirty_invariant
    { files := [{ path := "/s".toList, lines := [] }], modified := [0] }
    ⟨List.nodup_singleton 0, by intro m hm; simp at hm; simp [hm]⟩
    "/s".toList "u".toList "a".toList "b".toList
    { enabled := true, source := false, options := none, url := "u".toList,
      suite := "a".toList, components := [] } true (fun _ => true)

/-- C7 amended: `insert_entry` with an existing target file replaces the
first same-url line in place (else appends) and marks that file dirty;
with no matching file it appends a fresh file holding only the entry but
leaves the dirty list untouched — the created file is not marked dirty. -/
theorem c7_amended_insert_entry_marks_only_existing_file_dirty
    (s : SourcesLists) (path : Str) (e : SourceEntry) :
    ((∀ f ∈ s.files, f.path ≠ path) →
      s.insertEntry path e =
        { files := s.files ++ [{ path := path, lines := [.Entry e] }],
          modified := s.modified }) ∧
    (∀ (i : Nat) (f : SourcesList),
      findPos (fun f => f.path = path) s.files = some i → s.files[i]? = some f →
      s.insertEntry path e =
        { files := s.files.set i
            { f with lines :=
                match f.containsEntry e.url with
                | some pos => f.lines.set pos (.Entry e)
                | none => f.lines ++ [.Entry e] },
          modified := addModified s.modified (u16ofNat i) }) := by
  constructor
  · intro hnone
    rw [SourcesLists.insertEntry, insertEntryGo_eq_none path e hnone]
  · intro i f hfind hget
    rw [SourcesLists.insertEntry, insertEntryGo_eq_some path e hfind hget]

/-- Witness for C7: both branches at concrete collections — a missing
path leaves the dirty list empty, a present path produces dirty list
`[0]`. -/
theorem c7_witness :
    (SourcesLists.insertEntry { files := [], modified := [] } "/s".toList
        { enabled := true, source := false, options := none, url := "u".toList,
          suite := "a".toList, components := [] } =
      { files := [{ path := "/s".toList,
                    lines := [.Entry { enabled := true, source := false, options := none,
                                       url := "u".toList, suite := "a".toList,
                                       components := [] }] }],
        modified := [] }) ∧
    (SourcesLists.insertEntry { files := [{ path := "/s".toList, lines := [] }], modified := [] }
        "/s".toList
        { enabled := true, source := false, options := none, url := "u".toList,
          suite := "a".toList, components := [] } =
      { files := [{ path := "/s".toList,
                    lines := [.Entry { enabled := true, source := false, options := none,
                                       url := "u".toList, suite := "a".toList,
                                       components := [] }] }],
        modified := addModified [] (u16ofNat 0) }) := by
  constructor
  · exact (c7_amended_insert_entry_marks_only_existing_file_dirty
      { files := [], modified := [] } "/s".toList _).1 (by intro f hf; cases hf)
  · exact (c7_amended_insert_entry_marks_only_existing_file_dirty
      { files := [{ path := "/s".toList, lines := [] }], modified := [] } "/s".toList _).2
      0 { path := "/s".toList, lines := [] } (by decide) rfl

/-- When nothing is found, no element satisfies the predicate. -/
theorem findPos_none_all {p : α → Bool} :
    ∀ {l : List α}, findPos p l = none → ∀ a ∈ l, p a = false := by
  intro l
  induction l with
  | nil => intro _ a ha; cases ha
  | cons x rest ih =>
    intro h a ha
    rw [findPos] at h
    by_cases hp : p x = true
    · rw [if_pos hp] at h; cases h
    · rw [if_neg hp] at h
      cases hi : findPos p rest with
      | some k => rw [hi] at h; cases h
      | none =>
        rcases List.mem_cons.mp ha with rfl | hmem
        · exact Bool.eq_false_iff.mpr hp
        · exact ih hi a hmem

/-- The element at a found position satisfies the predicate. -/
theorem findPos_some_get {p : α → Bool} :
    ∀ {l : List α} {i : Nat} {a : α}, findPos p l = some i → l[i]? = some a →
      p a = true := by
  intro l
  induction l with
  | nil => intro i a h _; simp [findPos] at h
  | cons x rest ih =>
    intro i a h hget
    rw [findPos] at h
    by_cases hp : p x = true
    · rw [if_pos hp] at h
      cases h
      rw [List.getElem?_cons_zero] at hget
      cases hget
      exact hp
    · rw [if_neg hp] at h
      cases hi : findPos p rest with
      | none => rw [hi] at h; cases h
      | some k =>
        rw [hi] at h
        cases h
        rw [List.getElem?_cons_succ] at hget
        exact ih hi hget

/-- C8 amended: after `insert_entry` the target file's position lookup on
the entry's url finds a position holding exactly the inserted entry; after
`remove_entry` the lookup returns `none` on every file that held at most
one matching line (only the first matching line of each file is removed,
so files with several same-url entries keep the later ones, see the
counterexample). -/
theorem c8_amended_lookup_after_insert_and_remove :
    (∀ (s : SourcesLists) (path : Str) (e : SourceEntry),
      ∃ (i pos : Nat) (f : SourcesList),
        (s.insertEntry path e).files[i]? = some f ∧ f.path = path ∧
        f.containsEntry e.url = some pos ∧ f.lines[pos]? = some (.Entry e)) ∧
    (∀ (s : SourcesLists) (url : Str) (i : Nat) (f₀ f : SourcesList),
      s.files[i]? = some f₀ → f₀.lines.countP (lineMatchesUrl url) ≤ 1 →
      (s.removeEntry url).files[i]? = some f →
      f.containsEntry url = none) := by
  constructor
  · intro s path e
    have hself : lineMatchesUrl e.url (.Entry e) = true := by
      rw [lineMatchesUrl]
      exact decide_eq_true rfl
    cases hfind : findPos (fun f => f.path = path) s.files with
    | none =>
      have hnone : ∀ f ∈ s.files, f.path ≠ path := by
        intro f hf heq
        have := findPos_none_all hfind f hf
        rw [decide_eq_true heq] at this
        cases this
      refine ⟨s.files.length, 0, { path := path, lines := [.Entry e] }, ?_, rfl, ?_, rfl⟩
      · rw [SourcesLists.insertEntry, insertEntryGo_eq_none path e hnone]
        exact List.getElem?_concat_length s.files _
      · rw [SourcesList.containsEntry, findPos, if_pos hself]
    | some i =>
      have hlt : i < s.files.length := findPos_lt_length hfind
      obtain ⟨f, hget⟩ : ∃ f, s.files[i]? = some f := by
        rw [List.getElem?_eq_getElem hlt]
        exact ⟨_, rfl⟩
      have hpath : f.path = path :=
        of_decide_eq_true
          (@findPos_some_get SourcesList (fun f => decide (f.path = path)) s.files i f hfind hget)
      rw [SourcesLists.insertEntry, insertEntryGo_eq_some path e hfind hget]
      cases hce : f.containsEntry e.url with
      | some pos =>
        have hposlt : pos < f.lines.length := findPos_lt_length hce
        refine ⟨i, pos, { path := f.path, lines := f.lines.set pos (.Entry e) },
          ?_, hpath, ?_, ?_⟩
        · simp only [hce]
          exact List.getElem?_set_self (by simpa using hlt)
        · simp only [SourcesList.containsEntry]
          exact findPos_set hself hce
        · exact List.getElem?_set_self hposlt
      | none =>
        refine ⟨i, f.lines.length, { path := f.path, lines := f.lines ++ [.Entry e] },
          ?_, hpath, ?_, ?_⟩
        · simp only [hce]
          exact List.getElem?_set_self (by simpa using hlt)
        · simp only [SourcesList.containsEntry]
          exact findPos_append_of_none hself hce
        · exact List.getElem?_concat_length f.lines _
  · intro s url i f₀ f hget hcount hget'
    rw [SourcesLists.removeEntry] at hget'
    rw [removeEntryGo_files_map, List.getElem?_map, hget, Option.map_some'] at hget'
    cases hget'
    rw [removeOne]
    cases hce : f₀.containsEntry url with
    | some line =>
      simp only [SourcesList.containsEntry] at hce ⊢
      exact findPos_eraseIdx_of_countP_le_one hcount hce
    | none => exact hce

/-- Witness for C8: the insert-then-lookup part at an empty collection,
and the remove-then-lookup part at a one-file collection holding a single
matching entry. -/
theorem c8_witness :
    (∃ (i pos : Nat) (f : SourcesList),
      (SourcesLists.insertEntry { files := [], modified := [] } "/s".toList
          { enabled := true, source := false, options := none, url := "u".toList,
            suite := "a".toList, components := [] }).files[i]? = some f ∧
      f.path = "/s".toList ∧
      f.containsEntry "u".toList = some pos ∧
      f.lines[pos]? = some (.Entry { enabled := true, source := false, options := none,
                                     url := "u".toList, suite := "a".toList,
                                     components := [] })) ∧
    SourcesList.containsEntry { path := "/s".toList, lines := [] } "u".toList = none := by
  constructor
  · exact c8_amended_lookup_after_insert_and_remove.1 { files := [], modified := [] }
      "/s".toList
      { enabled := true, source := false, options := none, url := "u".toList,
        suite := "a".toList, components := [] }
  · exact c8_amended_lookup_after_insert_and_remove.2
      { files := [{ path := "/s".toList,
                    lines := [.Entry { enabled := true, source := false, options := none,
                                       url := "u".toList, suite := "a".toList,
                                       components := [] }] }],
        modified := [] }
      "u".toList 0
      { path := "/s".toList,
        lines := [.Entry { enabled := true, source := false, options := none,
                           url := "u".toList, suite := "a".toList, components := [] }] }
      { path := "/s".toList, lines := [] }
      (by decide) (by decide) (by decide)

/-- The line-collection loop of `SourcesList::from_str`: on success the
collected lines extend the accumulator without duplicates, and a line is
collected exactly when it is the classification of some raw input line
(or was already in the accumulator). -/
theorem parseLines_ok :
    ∀ (raws : List Str) (no : Nat) (acc out : List SourceLine),
      SourcesList.parseLines no raws acc = .ok out →
      (acc.Nodup → out.Nodup) ∧
      (∀ l, l ∈ out ↔ l ∈ acc ∨ ∃ raw ∈ raws, SourceLine.fromStr raw = .ok l) := by
  intro raws
  induction raws with
  | nil =>
    intro no acc out h
    rw [SourcesList.parseLines] at h
    cases h
    exact ⟨fun hnd => hnd, fun l => by simp⟩
  | cons raw rest ih =>
    intro no acc out h
    rw [SourcesList.parseLines] at h
    cases hraw : SourceLine.fromStr raw with
    | error e =>
      rw [hraw] at h
      cases h
    | ok l0 =>
      rw [hraw] at h
      have hmem_step : ∀ l : SourceLine,
          l ∈ (if acc.contains l0 then acc else acc ++ [l0]) ↔ l ∈ acc ∨ l = l0 := by
        intro l
        by_cases hc : acc.contains l0 = true
        · rw [if_pos hc]
          have hl0 : l0 ∈ acc := List.elem_iff.mp hc
          constructor
          · exact Or.inl
          · rintro (h1 | rfl)
            · exact h1
            · exact hl0
        · rw [if_neg hc]
          simp [List.mem_append]
      have hnd_step : acc.Nodup → (if acc.contains l0 then acc else acc ++ [l0]).Nodup := by
        intro hnd
        by_cases hc : acc.contains l0 = true
        · rw [if_pos hc]
          exact hnd
        · rw [if_neg hc]
          refine List.nodup_append.mpr ⟨hnd, List.nodup_singleton _, ?_⟩
          intro a ha hmem
          rw [List.mem_singleton.mp hmem] at ha
          exact hc (List.elem_iff.mpr ha)
      obtain ⟨ihnd, ihmem⟩ := ih (no + 1) _ out h
      refine ⟨fun hnd => ihnd (hnd_step hnd), ?_⟩
      intro l
      rw [ihmem l, hmem_step l]
      constructor
      · rintro ((h1 | rfl) | ⟨r, hr, hrl⟩)
        · exact Or.inl h1
        · exact Or.inr ⟨raw, by simp, hraw⟩
        · exact Or.inr ⟨r, by simp [hr], hrl⟩
      · rintro (h1 | ⟨r, hr, hrl⟩)
        · exact Or.inl (Or.inl h1)
        · rcases List.mem_cons.mp hr with rfl | hr2
          · rw [hraw] at hrl
            injection hrl with hh
            exact Or.inl (Or.inr hh.symm)
          · exact Or.inr ⟨r, hr2, hrl⟩

/-- C6 amended: loading classifies every physical line, but appends a
classified line only when no structurally equal line was already
collected: the resulting sequence is duplicate-free, and contains exactly
the classifications of the input's physical lines. -/
theorem c6_amended_loading_suppresses_duplicate_lines
    (input : Str) (sl : SourcesList) (h : SourcesList.fromStr input = .ok sl) :
    sl.lines.Nodup ∧
    (∀ l, l ∈ sl.lines ↔ ∃ raw ∈ rustLines input, SourceLine.fromStr raw = .ok l) := by
  rw [SourcesList.fromStr] at h
  cases hp : SourcesList.parseLines 0 (rustLines input) [] with
  | error e =>
    rw [hp] at h
    cases h
  | ok lines =>
    rw [hp] at h
    cases h
    obtain ⟨hnd, hmem⟩ := parseLines_ok (rustLines input) 0 [] lines hp
    refine ⟨hnd List.nodup_nil, ?_⟩
    intro l
    rw [hmem l]
    simp

/-- Witness for C6: loading two identical blank lines yields the single,
duplicate-free `Empty` line, which is the classification of both raws. -/
theorem c6_witness :
    ([SourceLine.Empty] : List SourceLine).Nodup ∧
    (∀ l, l ∈ ([SourceLine.Empty] : List SourceLine) ↔
      ∃ raw ∈ rustLines "\n\n".toList, SourceLine.fromStr raw = .ok l) :=
  c6_amended_loading_suppresses_duplicate_lines "\n\n".toList
    { path := [], lines := [SourceLine.Empty] } (by decide)

/-! ## Tokenization lemmas for the round-trip property -/

/-- A whitespace-only string yields no token when the accumulator is empty. -/
theorem splitWsAux_ws_nil :
    ∀ {w : Str}, (∀ c ∈ w, rustIsWhitespace c = true) → splitWsAux w [] = [] := by
  intro w
  induction w with
  | nil => intro _; rfl
  | cons c rest ih =>
    intro h
    rw [splitWsAux, if_pos (h c (by simp))]
    simp only [List.isEmpty_nil, if_pos]
    exact ih fun d hd => h d (by simp [hd])

/-- A whitespace-only string flushes the pending accumulator and nothing
else. -/
theorem splitWsAux_ws (w : Str) (hw : ∀ c ∈ w, rustIsWhitespace c = true) (acc : Str) :
    splitWsAux w acc = if acc.isEmpty then [] else [acc.reverse] := by
  cases w with
  | nil => rfl
  | cons c rest =>
    rw [splitWsAux, if_pos (hw c (by simp))]
    have hrest : splitWsAux rest [] = [] :=
      splitWsAux_ws_nil fun d hd => hw d (by simp [hd])
    by_cases ha : acc.isEmpty = true
    · rw [if_pos ha, if_pos ha]
      exact hrest
    · rw [if_neg ha, if_neg ha, hrest]

/-- Leading whitespace does not change the token list. -/
theorem splitWsAux_dropWhile (s : Str) :
    splitWsAux (s.dropWhile rustIsWhitespace) [] = splitWsAux s [] := by
  induction s with
  | nil => rfl
  | cons c rest ih =>
    by_cases hc : rustIsWhitespace c = true
    · rw [List.dropWhile_cons, if_pos hc, ih, splitWsAux, if_pos hc]
      simp only [List.isEmpty_nil, if_pos]
    · rw [List.dropWhile_cons, if_neg hc]

/-- Trailing whitespace does not change the token list. -/
theorem splitWsAux_append_ws (w : Str) (hw : ∀ c ∈ w, rustIsWhitespace c = true) :
    ∀ (s : Str) (acc : Str), splitWsAux (s ++ w) acc = splitWsAux s acc := by
  intro s
  induction s with
  | nil =>
    intro acc
    rw [List.nil_append, splitWsAux_ws w hw, splitWsAux]
  | cons c rest ih =>
    intro acc
    rw [List.cons_append, splitWsAux, splitWsAux]
    by_cases hc : rustIsWhitespace c = true
    · rw [if_pos hc, if_pos hc]
      by_cases ha : acc.isEmpty = true
      · rw [if_pos ha, if_pos ha, ih]
      · rw [if_neg ha, if_neg ha, ih]
    · rw [if_neg hc, if_neg hc, ih]

/-- `split_whitespace` is invariant under `trim`. -/
theorem splitWhitespace_rustTrim (s : Str) :
    splitWhitespace (rustTrim s) = splitWhitespace s := by
  have hsplit : s = rustTrimEnd s ++ (s.reverse.takeWhile rustIsWhitespace).reverse := by
    rw [rustTrimEnd]
    have := @List.takeWhile_append_dropWhile Char rustIsWhitespace s.reverse
    calc s = s.reverse.reverse := (List.reverse_reverse s).symm
    _ = (s.reverse.takeWhile rustIsWhitespace ++ s.reverse.dropWhile rustIsWhitespace).reverse := by
      rw [this]
    _ = (s.reverse.dropWhile rustIsWhitespace).reverse ++
          (s.reverse.takeWhile rustIsWhitespace).reverse := by
      rw [List.reverse_append]
  have hws : ∀ c ∈ (s.reverse.takeWhile rustIsWhitespace).reverse, rustIsWhitespace c = true := by
    intro c hc
    exact List.mem_takeWhile_imp (List.mem_reverse.mp hc)
  rw [rustTrim, rustTrimStart, splitWhitespace, splitWhitespace, splitWsAux_dropWhile]
  calc splitWsAux (rustTrimEnd s) [] =
      splitWsAux (rustTrimEnd s ++ (s.reverse.takeWhile rustIsWhitespace).reverse) [] :=
        (splitWsAux_append_ws _ hws _ _).symm
  _ = splitWsAux s [] := by rw [← hsplit]

/-- A whitespace-free token followed by a space is cut as one token. -/
theorem splitWsAux_token (t : Str) (ht : ∀ c ∈ t, rustIsWhitespace c = false) :
    ∀ (acc : Str) (rest : Str), (acc.reverse ++ t) ≠ [] →
      splitWsAux (t ++ ' ' :: rest) acc = (acc.reverse ++ t) :: splitWsAux rest [] := by
  induction t with
  | nil =>
    intro acc rest hne
    rw [List.nil_append, splitWsAux, if_pos (by decide)]
    rw [List.append_nil] at hne
    have : acc.isEmpty = false := by
      cases acc with
      | nil => simp at hne
      | cons a as => rfl
    rw [this]
    simp
  | cons c t' ih =>
    intro acc rest hne
    rw [List.cons_append, splitWsAux, if_neg (by simp [ht c (by simp)])]
    rw [ih (fun d hd => ht d (by simp [hd])) (c :: acc) rest (by simp)]
    simp

/-- A whitespace-free final token is cut as the last token. -/
theorem splitWsAux_final (t : Str) (ht : ∀ c ∈ t, rustIsWhitespace c = false) :
    ∀ (acc : Str), (acc.reverse ++ t) ≠ [] →
      splitWsAux t acc = [acc.reverse ++ t] := by
  induction t with
  | nil =>
    intro acc hne
    rw [List.append_nil] at hne
    have : acc.isEmpty = false := by
      cases acc with
      | nil => simp at hne
      | cons a as => rfl
    rw [splitWsAux, this]
    simp
  | cons c t' ih =>
    intro acc hne
    rw [splitWsAux, if_neg (by simp [ht c (by simp)])]
    rw [ih (fun d hd => ht d (by simp [hd])) (c :: acc) (by simp)]
    simp

/-- Space-joined whitespace-free nonempty tokens re-tokenize to themselves. -/
theorem splitWsAux_joinSpace :
    ∀ (comps : List Str),
      (∀ c ∈ comps, c ≠ [] ∧ ∀ ch ∈ c, rustIsWhitespace ch = false) →
      splitWsAux (joinSpace comps) [] = comps := by
  intro comps
  induction comps with
  | nil => intro _; rfl
  | cons c rest ih =>
    intro h
    cases rest with
    | nil =>
      rw [joinSpace]
      have := splitWsAux_final c (h c (by simp)).2 []
      rw [List.reverse_nil, List.nil_append] at this
      exact this (h c (by simp)).1
    | cons c2 rest2 =>
      have hj : joinSpace (c :: c2 :: rest2) = c ++ ' ' :: joinSpace (c2 :: rest2) := rfl
      rw [hj]
      have := splitWsAux_token c (h c (by simp)).2 [] (joinSpace (c2 :: rest2))
      rw [List.reverse_nil, List.nil_append] at this
      rw [this (h c (by simp)).1]
      rw [ih fun d hd => h d (by simp [hd])]

/-- The bracketed options token of a formatted entry, when present. -/
def optTokens : Option Str → List Str
  | some o => ['[' :: (o ++ [']'])]
  | none => []

/-- The `url suite comp...` tail of a formatted entry re-tokenizes to its
fields. -/
theorem splitWsAux_tail (url suite : Str) (comps : List Str)
    (hurl : url ≠ [] ∧ ∀ c ∈ url, rustIsWhitespace c = false)
    (hsuite : suite ≠ [] ∧ ∀ c ∈ suite, rustIsWhitespace c = false)
    (hcomps : ∀ c ∈ comps, c ≠ [] ∧ ∀ ch ∈ c, rustIsWhitespace ch = false) :
    splitWsAux (url ++ ' ' :: (suite ++ ' ' :: joinSpace comps)) [] =
      url :: suite :: comps := by
  have h1 := splitWsAux_token url hurl.2 [] (suite ++ ' ' :: joinSpace comps)
  rw [List.reverse_nil, List.nil_append] at h1
  rw [h1 hurl.1]
  have h2 := splitWsAux_token suite hsuite.2 [] (joinSpace comps)
  rw [List.reverse_nil, List.nil_append] at h2
  rw [h2 hsuite.1]
  rw [splitWsAux_joinSpace comps hcomps]

/-- A formatted enabled entry with whitespace-free nonempty fields
re-tokenizes to its kind token, its bracketed options token (if any), its
url, its suite and its components. -/
theorem splitWhitespace_fmt (e : SourceEntry) (hen : e.enabled = true)
    (hurl : e.url ≠ [] ∧ ∀ c ∈ e.url, rustIsWhitespace c = false)
    (hsuite : e.suite ≠ [] ∧ ∀ c ∈ e.suite, rustIsWhitespace c = false)
    (hcomps : ∀ c ∈ e.components, c ≠ [] ∧ ∀ ch ∈ c, rustIsWhitespace ch = false)
    (hopts : ∀ o, e.options = some o → ∀ c ∈ o, rustIsWhitespace c = false) :
    splitWhitespace (SourceEntry.fmt e) =
      (if e.source then "deb-src".toList else "deb".toList) ::
        (optTokens e.options ++ e.url :: e.suite :: e.components) := by
  obtain ⟨en, src, opts, url, suite, comps⟩ := e
  simp only at hen hurl hsuite hcomps hopts ⊢
  subst hen
  have htail := splitWsAux_tail url suite comps hurl hsuite hcomps
  cases opts with
  | none =>
    cases src with
    | false =>
      have hfmt : SourceEntry.fmt ⟨true, false, none, url, suite, comps⟩ =
          ['d', 'e', 'b'] ++ ' ' :: (url ++ ' ' :: (suite ++ ' ' :: joinSpace comps)) := by
        rw [SourceEntry.fmt]
        simp [List.append_assoc]
      rw [splitWhitespace, hfmt]
      have h0 := splitWsAux_token ['d', 'e', 'b'] (by decide) []
        (url ++ ' ' :: (suite ++ ' ' :: joinSpace comps))
      rw [List.reverse_nil, List.nil_append] at h0
      rw [h0 (by decide), htail]
      rfl
    | true =>
      have hfmt : SourceEntry.fmt ⟨true, true, none, url, suite, comps⟩ =
          ['d', 'e', 'b', '-', 's', 'r', 'c'] ++
            ' ' :: (url ++ ' ' :: (suite ++ ' ' :: joinSpace comps)) := by
        rw [SourceEntry.fmt]
        simp [List.append_assoc]
      rw [splitWhitespace, hfmt]
      have h0 := splitWsAux_token ['d', 'e', 'b', '-', 's', 'r', 'c'] (by decide) []
        (url ++ ' ' :: (suite ++ ' ' :: joinSpace comps))
      rw [List.reverse_nil, List.nil_append] at h0
      rw [h0 (by decide), htail]
      rfl
  | some o =>
    have ho : ∀ c ∈ '[' :: (o ++ [']']), rustIsWhitespace c = false := by
      intro c hc
      rcases List.mem_cons.mp hc with rfl | hc2
      · decide
      · rcases List.mem_append.mp hc2 with hc3 | hc4
        · exact hopts o rfl c hc3
        · rw [List.mem_singleton.mp hc4]
          decide
    have hbr := splitWsAux_token ('[' :: (o ++ [']'])) ho []
      (url ++ ' ' :: (suite ++ ' ' :: joinSpace comps))
    rw [List.reverse_nil, List.nil_append] at hbr
    cases src with
    | false =>
      have hfmt : SourceEntry.fmt ⟨true, false, some o, url, suite, comps⟩ =
          ['d', 'e', 'b'] ++ ' ' :: (('[' :: (o ++ [']'])) ++
            ' ' :: (url ++ ' ' :: (suite ++ ' ' :: joinSpace comps))) := by
        rw [SourceEntry.fmt]
        simp [List.append_assoc]
      rw [splitWhitespace, hfmt]
      have h0 := splitWsAux_token ['d', 'e', 'b'] (by decide) []
        (('[' :: (o ++ [']'])) ++ ' ' :: (url ++ ' ' :: (suite ++ ' ' :: joinSpace comps)))
      rw [List.reverse_nil, List.nil_append] at h0
      rw [h0 (by decide), hbr (by simp), htail]
      rfl
    | true =>
      have hfmt : SourceEntry.fmt ⟨true, true, some o, url, suite, comps⟩ =
          ['d', 'e', 'b', '-', 's', 'r', 'c'] ++ ' ' :: (('[' :: (o ++ [']'])) ++
            ' ' :: (url ++ ' ' :: (suite ++ ' ' :: joinSpace comps))) := by
        rw [SourceEntry.fmt]
        simp [List.append_assoc]
      rw [splitWhitespace, hfmt]
      have h0 := splitWsAux_token ['d', 'e', 'b', '-', 's', 'r', 'c'] (by decide) []
        (('[' :: (o ++ [']'])) ++ ' ' :: (url ++ ' ' :: (suite ++ ' ' :: joinSpace comps)))
      rw [List.reverse_nil, List.nil_append] at h0
      rw [h0 (by decide), hbr (by simp), htail]
      rfl

/-- Position of the closing bracket appended to a bracket-free option
text. -/
theorem findChar_append_rbr (o : Str) (ho : ∀ c ∈ o, ¬ c = ']') :
    findChar ']' (o ++ [']']) = some o.length := by
  induction o with
  | nil => simp [findChar]
  | cons c rest ih =>
    rw [List.cons_append, findChar, if_neg (ho c (by simp))]
    rw [ih fun d hd => ho d (by simp [hd])]
    rfl

/-- Parsing the token list of a formatted entry recovers every field. -/
theorem fromTokens_roundtrip (src : Bool) (opts : Option Str) (url suite : Str)
    (comps : List Str) (hurlb : ¬ url.head? = some '[')
    (hopts : ∀ o, opts = some o → ¬ o = [] ∧ ∀ c ∈ o, ¬ c = ']') :
    SourceEntry.fromTokens
      ((if src then "deb-src".toList else "deb".toList) ::
        (optTokens opts ++ url :: suite :: comps)) =
      .ok ⟨true, src, opts, url, suite, comps⟩ := by
  have hne : ¬ ("deb-src".toList = "deb".toList) := by decide
  cases opts with
  | none =>
    cases src with
    | false =>
      show SourceEntry.fromTokens ("deb".toList :: url :: suite :: comps) = _
      simp only [SourceEntry.fromTokens]
      simp [hurlb]
    | true =>
      show SourceEntry.fromTokens ("deb-src".toList :: url :: suite :: comps) = _
      simp only [SourceEntry.fromTokens]
      simp [hne, hurlb]
  | some o =>
    obtain ⟨hone, ho⟩ := hopts o rfl
    cases src with
    | false =>
      show SourceEntry.fromTokens
        ("deb".toList :: ('[' :: (o ++ [']'])) :: url :: suite :: comps) = _
      simp only [SourceEntry.fromTokens]
      simp [findChar_append_rbr o ho, List.take_left, hone]
    | true =>
      show SourceEntry.fromTokens
        ("deb-src".toList :: ('[' :: (o ++ [']'])) :: url :: suite :: comps) = _
      simp only [SourceEntry.fromTokens]
      simp [hne, findChar_append_rbr o ho, List.take_left, hone]

/-- Dropping trailing whitespace commutes with a non-whitespace head. -/
theorem rustTrimEnd_cons (c : Char) (t : Str) (hc : rustIsWhitespace c = false) :
    rustTrimEnd (c :: t) = c :: rustTrimEnd t := by
  rw [rustTrimEnd, rustTrimEnd, List.reverse_cons, List.dropWhile_append]
  by_cases h : (t.reverse.dropWhile rustIsWhitespace).isEmpty = true
  · rw [if_pos h]
    have hnil : t.reverse.dropWhile rustIsWhitespace = [] := by
      cases he : t.reverse.dropWhile rustIsWhitespace with
      | nil => rfl
      | cons x xs => rw [he] at h; cases h
    rw [hnil, List.dropWhile_cons, if_neg (by simp [hc])]
    simp
  · rw [if_neg h, List.reverse_append]
    simp

/-- `trim` of a string with a non-whitespace head keeps the head and only
drops trailing whitespace. -/
theorem rustTrim_cons (c : Char) (t : Str) (hc : rustIsWhitespace c = false) :
    rustTrim (c :: t) = c :: rustTrimEnd t := by
  rw [rustTrim, rustTrimEnd_cons c t hc, rustTrimStart, List.dropWhile_cons,
    if_neg (by simp [hc])]

/-- A formatted enabled entry starts with the letter `d`. -/
theorem fmt_eq_cons (e : SourceEntry) (hen : e.enabled = true) :
    ∃ t : Str, SourceEntry.fmt e = 'd' :: t := by
  obtain ⟨en, src, opts, url, suite, comps⟩ := e
  simp only at hen
  subst hen
  cases src with
  | false => exact ⟨_, rfl⟩
  | true => exact ⟨_, rfl⟩

/-- C4 amended: format-then-parse is the identity on enabled entries whose
url, suite and components are nonempty whitespace-free tokens, whose url
does not begin with `[`, and whose options text (when present) is
nonempty, whitespace-free and free of `]`. (Disabled entries never
round-trip — the classifier turns their `# `-prefixed text into a
`Comment`; entries with whitespace inside a field re-tokenize
differently, see the counterexample.) -/
theorem c4_amended_roundtrip_for_token_shaped_enabled_entries
    (e : SourceEntry) (hen : e.enabled = true)
    (hurl : e.url ≠ [] ∧ ∀ c ∈ e.url, rustIsWhitespace c = false)
    (hurlb : ¬ e.url.head? = some '[')
    (hsuite : e.suite ≠ [] ∧ ∀ c ∈ e.suite, rustIsWhitespace c = false)
    (hcomps : ∀ c ∈ e.components, c ≠ [] ∧ ∀ ch ∈ c, rustIsWhitespace ch = false)
    (hopts : ∀ o, e.options = some o →
      (o ≠ [] ∧ ∀ c ∈ o, rustIsWhitespace c = false) ∧ ∀ c ∈ o, ¬ c = ']') :
    SourceLine.fromStr (SourceEntry.fmt e) = .ok (.Entry e) := by
  obtain ⟨t, hfmt⟩ := fmt_eq_cons e hen
  have htrim : rustTrim (SourceEntry.fmt e) = 'd' :: rustTrimEnd t := by
    rw [hfmt, rustTrim_cons 'd' t (by decide)]
  have hparse : SourceEntry.fromStr (rustTrim (SourceEntry.fmt e)) = .ok e := by
    rw [SourceEntry.fromStr, splitWhitespace_rustTrim,
      splitWhitespace_fmt e hen hurl hsuite hcomps (fun o hoo => (hopts o hoo).1.2),
      fromTokens_roundtrip e.source e.options e.url e.suite e.components hurlb
        (fun o hoo => ⟨(hopts o hoo).1.1, (hopts o hoo).2⟩)]
    rw [← hen]
  have h1 : ¬ (('d' :: rustTrimEnd t).head? = some '#') := by simp
  have h2 : ¬ (('d' :: rustTrimEnd t).isEmpty = true) := by simp
  rw [SourceLine.fromStr]
  simp only [htrim, h1, h2, if_false]
  rw [← htrim, hparse]
  rfl

/-- Witness for C4: the round trip at a concrete enabled `deb-src` entry
with an options token and two components. -/
theorem c4_witness :
    SourceLine.fromStr (SourceEntry.fmt
        { enabled := true, source := true, options := some "arch=amd64".toList,
          url := "http://x/".toList, suite := "cosmic".toList,
          components := ["main".toList, "universe".toList] }) =
      .ok (.Entry { enabled := true, source := true, options := some "arch=amd64".toList,
                    url := "http://x/".toList, suite := "cosmic".toList,
                    components := ["main".toList, "universe".toList] }) :=
  c4_amended_roundtrip_for_token_shaped_enabled_entries
    { enabled := true, source := true, options := some "arch=amd64".toList,
      url := "http://x/".toList, suite := "cosmic".toList,
      components := ["main".toList, "universe".toList] }
    rfl ⟨by decide, by decide⟩ (by decide) ⟨by decide, by decide⟩ (by decide)
    (by
      intro o ho
      injection ho with h
      subst h
      exact ⟨⟨by decide, by decide⟩, by decide⟩)
